import Mathlib

/-
Shallow embedding of the rtiow-r ray tracer (src/math.rs, src/trace.rs,
src/main.rs).  The Rust `Float` type (an alias for `f64`) is modelled by the
real numbers `ℝ`; the value `Float::INFINITY`, which the integrator passes as
an interval upper bound, is modelled by `⊤ : WithTop ℝ`, so every interval
bound parameter `t_min`/`t_max` lives in `WithTop ℝ` while intersection
parameters themselves are real.  A separate `Option ℝ` model at the end of the
definitions captures IEEE NaN propagation for the claims that concern NaN.
-/

noncomputable section

/-- Model of `Vec3` from src/math.rs: three `Float` components.  The Rust
struct stores an array `e: [Float; 3]` with accessors `x()`, `y()`, `z()`;
here the three components are named fields. -/
structure Vec3 where
  x : ℝ
  y : ℝ
  z : ℝ
deriving DecidableEq

/-- `Point` is an alias of `Vec3` in src/math.rs. -/
abbrev Point := Vec3

/-- `Color` is an alias of `Vec3` in src/math.rs. -/
abbrev Color := Vec3

/-- Model of `Ray` from src/math.rs. -/
structure Ray where
  origin : Vec3
  direction : Vec3

/-- Componentwise vector addition (`impl Add for Vec3`). -/
instance : Add Vec3 := ⟨fun u v => ⟨u.x + v.x, u.y + v.y, u.z + v.z⟩⟩

/-- Componentwise vector subtraction (`impl Sub for Vec3`). -/
instance : Sub Vec3 := ⟨fun u v => ⟨u.x - v.x, u.y - v.y, u.z - v.z⟩⟩

/-- Vector negation (`impl Neg for Vec3`). -/
instance : Neg Vec3 := ⟨fun v => ⟨-v.x, -v.y, -v.z⟩⟩

/-- Scalar multiplication on the right (`impl Mul<Float> for Vec3`). -/
instance : HMul Vec3 ℝ Vec3 := ⟨fun v t => ⟨v.x * t, v.y * t, v.z * t⟩⟩

/-- Componentwise (Hadamard) product (`impl Mul for Vec3`). -/
instance : Mul Vec3 := ⟨fun u v => ⟨u.x * v.x, u.y * v.y, u.z * v.z⟩⟩

/-- Scalar division (`impl Div<Float> for Vec3`): the source computes
`self * (1.0 / t)`. -/
instance : HDiv Vec3 ℝ Vec3 := ⟨fun v t => v * ((1 : ℝ) / t)⟩

/-- `Vec3::length_squared` from src/math.rs. -/
def Vec3.length_squared (v : Vec3) : ℝ :=
  v.x * v.x + v.y * v.y + v.z * v.z

/-- `Vec3::length` from src/math.rs. -/
def Vec3.length (v : Vec3) : ℝ :=
  Real.sqrt v.length_squared

/-- `dot_product` from src/math.rs. -/
def dot_product (u v : Vec3) : ℝ :=
  u.x * v.x + u.y * v.y + u.z * v.z

/-- `cross_product` from src/math.rs. -/
def cross_product (u v : Vec3) : Vec3 :=
  ⟨u.y * v.z - u.z * v.y, u.z * v.x - u.x * v.z, u.x * v.y - u.y * v.x⟩

/-- `to_unit_vector` from src/math.rs. -/
def to_unit_vector (v : Vec3) : Vec3 :=
  v / v.length

/-- `Ray::at` from src/math.rs. -/
def Ray.at (r : Ray) (t : ℝ) : Point :=
  r.origin + r.direction * t

/-- `is_in_range` from src/math.rs: `t < t_max && t > t_min`.  The bounds are
modelled in `WithTop ℝ` because the integrator passes `Float::INFINITY` as
`t_max`; a finite `f64` compares below `INFINITY` exactly as a real coerced
into `WithTop ℝ` compares below `⊤`. -/
def is_in_range (t : ℝ) (t_min t_max : WithTop ℝ) : Bool :=
  decide ((t : WithTop ℝ) < t_max) && decide (t_min < (t : WithTop ℝ))

/-- `clamp` from src/math.rs. -/
def clamp (x min max : ℝ) : ℝ :=
  if x < min then min else if x > max then max else x

/-- `reflect_around_normal` from src/math.rs:
`*v - *normal * 2.0 * dot_product(v, normal)`. -/
def reflect_around_normal (v normal : Vec3) : Vec3 :=
  v - normal * (2 : ℝ) * dot_product v normal

/-- `refract_around_normal` from src/math.rs. -/
def refract_around_normal (u normal : Vec3) (etai_over_etat : ℝ) : Vec3 :=
  let cos_theta := dot_product (-u) normal
  let r_out_parallel := (u + normal * cos_theta) * etai_over_etat
  let r_out_perp :=
    normal * (-(Real.sqrt ((1 : ℝ) - r_out_parallel.length_squared)))
  r_out_parallel + r_out_perp

/-- `lambertian_random_in_unit_sphere` from src/trace.rs, with the two draws
of the thread-local RNG (`a` uniform in `[0, 2π)` and `z` uniform in
`[-1, 1]`) passed in explicitly. -/
def lambertian_random_in_unit_sphere (a z : ℝ) : Vec3 :=
  let r := Real.sqrt ((1 : ℝ) - z * z)
  ⟨r * Real.cos a, r * Real.sin a, z⟩

/-- `BLACK` from src/trace.rs. -/
def BLACK : Color := ⟨0, 0, 0⟩

/-- `WHITE` from src/trace.rs. -/
def WHITE : Color := ⟨1, 1, 1⟩

/-- `LIGHT_BLUE` from src/trace.rs. -/
def LIGHT_BLUE : Color := ⟨0.5, 0.7, 1⟩

/-- The three `Material` implementations of src/trace.rs
(`LambertianMaterial`, `MetalMaterial`, `DiaelectriMaterial`) as a closed
variant type; each variant carries exactly the fields of the Rust struct. -/
inductive Material where
  | lambertian (albedo : Color)
  | metal (albedo : Color) (fuzziness : ℝ)
  | dielectric (albedo : Color) (ref_idx : ℝ)

/-- Model of `HitRecord` from src/trace.rs. -/
structure HitRecord where
  point : Point
  normal : Vec3
  t : ℝ
  front_face : Bool
  material : Material

/-- `HitRecord::from_hit` combined with `HitRecord::set_face_normal` from
src/trace.rs, written functionally: `from_hit` builds a record with a zero
normal and `front_face = false` and immediately overwrites both fields via
`set_face_normal`, so the composite is a single record construction. -/
def HitRecord.from_hit (point : Point) (ray : Ray) (t : ℝ)
    (outward_normal : Vec3) (material : Material) : HitRecord :=
  let ff : Bool := decide (dot_product ray.direction outward_normal < 0)
  { point := point
    normal := if ff then outward_normal else -outward_normal
    t := t
    front_face := ff
    material := material }

/-- Model of `Sphere` from src/trace.rs. -/
structure Sphere where
  center : Point
  radius : ℝ
  material : Material

/-- `Sphere::calc_hit` from src/trace.rs. -/
def Sphere.calc_hit (s : Sphere) (t : ℝ) (ray : Ray) : HitRecord :=
  let point := ray.at t
  let outward_normal := (point - s.center) / s.radius
  HitRecord.from_hit point ray t outward_normal s.material

/-- `Sphere::hit` from src/trace.rs (the `impl Hittable for Sphere`).  The
Rust code matches on `discriminant.partial_cmp(&0.0)`; on real numbers the
comparison is total, so the `Some(Ordering::Less)` arm is the `disc < 0` test
and the `None` (NaN) arm cannot arise — the NaN behaviour is modelled
separately below over `Option ℝ`. -/
def Sphere.hit (s : Sphere) (ray : Ray) (t_min t_max : WithTop ℝ) :
    Option HitRecord :=
  let oc := ray.origin - s.center
  let a := ray.direction.length_squared
  let half_b := dot_product oc ray.direction
  let c := oc.length_squared - s.radius * s.radius
  let discriminant := half_b * half_b - a * c
  if discriminant < 0 then none
  else
    let root := Real.sqrt discriminant
    let t_root1 := (-half_b - root) / a
    let t_root2 := (-half_b + root) / a
    if is_in_range t_root1 t_min t_max then some (s.calc_hit t_root1 ray)
    else if is_in_range t_root2 t_min t_max then some (s.calc_hit t_root2 ray)
    else none

/-- The hittables of src/trace.rs: the trait `Hittable` is implemented by
`Sphere` and by `HittableCollection` (whose members are boxed `dyn Hittable`,
hence possibly nested collections). -/
inductive Hittable where
  | sphere (s : Sphere)
  | collection (hs : List Hittable)

mutual

/-- Dynamic dispatch of `Hittable::hit` over the two implementations in
src/trace.rs. -/
def Hittable.hit : Hittable → Ray → WithTop ℝ → WithTop ℝ → Option HitRecord
  | .sphere s, r, t_min, t_max => Sphere.hit s r t_min t_max
  | .collection hs, r, t_min, t_max => hitLoop hs r t_min t_max none

/-- The loop body of `impl Hittable for HittableCollection` in src/trace.rs:
`closest_hit` is the accumulator and the `t_max` parameter plays the role of
`closest_hit_t`, which starts at the caller's `t_max` and is set to `hit.t`
after each accepted hit. -/
def hitLoop : List Hittable → Ray → WithTop ℝ → WithTop ℝ →
    Option HitRecord → Option HitRecord
  | [], _, _, _, closest_hit => closest_hit
  | m :: rest, r, t_min, t_max, closest_hit =>
    match Hittable.hit m r t_min t_max with
    | some h => hitLoop rest r t_min ((h.t : ℝ) : WithTop ℝ) (some h)
    | none => hitLoop rest r t_min t_max closest_hit

end

/-- Model of `HittableCollection` from src/trace.rs. -/
structure HittableCollection where
  hittables : List Hittable

/-- `HittableCollection::new` from src/trace.rs. -/
def HittableCollection.new : HittableCollection :=
  ⟨[]⟩

/-- `impl Hittable for HittableCollection` from src/trace.rs, entering the
loop with `closest_hit = None` and `closest_hit_t = t_max`. -/
def HittableCollection.hit (c : HittableCollection) (r : Ray)
    (t_min t_max : WithTop ℝ) : Option HitRecord :=
  hitLoop c.hittables r t_min t_max none

/-- `DiaelectriMaterial::new` from src/trace.rs: stores the given `ref_idx`
unchanged (no validation) and fixes the albedo to `WHITE`. -/
def DiaelectriMaterial.new (ref_idx : ℝ) : Material :=
  .dielectric WHITE ref_idx

/-- `DiaelectriMaterial::schlick` from src/trace.rs. -/
def schlick (cosine ref_idx : ℝ) : ℝ :=
  let r0 := ((1 : ℝ) - ref_idx) / ((1 : ℝ) + ref_idx)
  let r0 := r0 * r0
  r0 + ((1 : ℝ) - r0) * ((1 : ℝ) - cosine) ^ (5 : ℕ)

/-- The random draws consumed by one `Material::scatter` call: `a` and `z`
are the two draws inside `lambertian_random_in_unit_sphere` (used by the
Lambertian and Metal materials) and `rf` is the `random_float()` draw of the
Dielectric material.  The Rust code pulls these from a thread-local RNG; the
model passes them explicitly. -/
structure ScatterRand where
  a : ℝ
  z : ℝ
  rf : ℝ

/-- The three `impl Material for ...` blocks of src/trace.rs.  The Rust
signature writes the attenuation through `&mut Color` and returns
`Option<Ray>`; every branch of every implementation assigns `*attenuation`
before returning, so the model returns the pair (attenuation, scattered
ray option). -/
def Material.scatter (m : Material) (ray : Ray) (hit : HitRecord)
    (rnd : ScatterRand) : Color × Option Ray :=
  match m with
  | .lambertian albedo =>
    let scatter_direction :=
      hit.normal + lambertian_random_in_unit_sphere rnd.a rnd.z
    (albedo, some ⟨hit.point, scatter_direction⟩)
  | .metal albedo fuzziness =>
    let reflected_direction := reflect_around_normal ray.direction hit.normal
    let fuzzed_direction :=
      reflected_direction + lambertian_random_in_unit_sphere rnd.a rnd.z * fuzziness
    let scattered_ray : Ray := ⟨hit.point, fuzzed_direction⟩
    (albedo,
      if dot_product scattered_ray.direction hit.normal > 0 then some scattered_ray
      else none)
  | .dielectric albedo ref_idx =>
    let etai_over_etat := if hit.front_face then (1 : ℝ) / ref_idx else ref_idx
    let direction := to_unit_vector ray.direction
    let cos_thetha := min (dot_product (-direction) hit.normal) 1
    let sin_thetha := Real.sqrt ((1 : ℝ) - cos_thetha * cos_thetha)
    let reflect_prob := schlick cos_thetha etai_over_etat
    let scattered_direction :=
      if etai_over_etat * sin_thetha > 1 ∨ reflect_prob > rnd.rf then
        reflect_around_normal direction hit.normal
      else
        refract_around_normal direction hit.normal etai_over_etat
    (albedo, some ⟨hit.point, scattered_direction⟩)

/-- `get_ray_color` from src/trace.rs.  The recursion is on the `depth`
budget; `rnd` supplies the per-bounce random draws (indexed by the remaining
depth after the bounce), and the world hit is queried on `(0.001, +∞)` as in
the source (`Float::INFINITY` is `⊤ : WithTop ℝ`).  The `attenuation`
variable is initialised to `WHITE` in the source and then written by
`scatter` before any use, which the pair-returning `scatter` models. -/
def get_ray_color (rnd : ℕ → ScatterRand) (ray : Ray)
    (world : HittableCollection) : ℕ → Color
  | 0 => BLACK
  | depth + 1 =>
    match world.hit ray ((0.001 : ℝ) : WithTop ℝ) ⊤ with
    | some hit =>
      match hit.material.scatter ray hit (rnd depth) with
      | (attenuation, some scattered_ray) =>
        attenuation * get_ray_color rnd scattered_ray world depth
      | (_, none) => BLACK
    | none =>
      let unit_direction := to_unit_vector ray.direction
      let t := (unit_direction.y + (1 : ℝ)) * (0.5 : ℝ)
      WHITE * ((1 : ℝ) - t) + LIGHT_BLUE * t

end

/-
Tiled rendering index arithmetic from src/main.rs.  The per-pixel sampling
loop (camera jitter, `SAMPLES_PER_PIXEL` accumulation, division by the sample
count) depends on the thread-local RNG; its result is abstracted as a
function `p : ℕ → ℕ → Color` giving the averaged sample color computed for
the absolute pixel position (row `j`, column `i`) — the loop body computes
that color from `(i, j)` alone.  The tile partitioning, the tile-local
buffer, and the frame-buffer reassembly are modelled exactly.
-/

/-- `IMAGE_WIDTH` from src/main.rs. -/
def IMAGE_WIDTH : ℕ := 1280

/-- `IMAGE_HEIGHT` from src/main.rs: `(1280.0 / (16.0/9.0)) as u32 = 720`. -/
def IMAGE_HEIGHT : ℕ := 720

/-- `TILE_WIDTH` from src/main.rs. -/
def TILE_WIDTH : ℕ := 16

/-- `TILE_HEIGHT` from src/main.rs: `(16.0 / (16.0/9.0)) as u32 = 9`. -/
def TILE_HEIGHT : ℕ := 9

/-- `tiles_per_row` from src/main.rs, generalised over the image and tile
widths. -/
def tilesPerRow (W TW : ℕ) : ℕ := W / TW

/-- `num_tiles` from src/main.rs, generalised. -/
def numTiles (W H TW TH : ℕ) : ℕ := W * H / (TW * TH)

/-- The reassembly index map of src/main.rs lines 96-97: tile-local slot
`(tile_idx, j, i)` is written to frame-buffer row
`(tile_idx / tiles_per_row) * TILE_HEIGHT + j` and column
`(tile_idx % tiles_per_row) * TILE_WIDTH + i`. -/
def tileToFrame (tpr TW TH tileIdx j i : ℕ) : ℕ × ℕ :=
  ((tileIdx / tpr) * TH + j, (tileIdx % tpr) * TW + i)

/-- The tile worker of src/main.rs lines 63-89: slot `(tile_j, tile_i)` of
tile `tile_idx` holds the averaged color of absolute pixel
`(row_start + tile_j, col_start + tile_i)` where
`row_start = (tile_idx / tiles_per_row) * TILE_HEIGHT` and
`col_start = (tile_idx % tiles_per_row) * TILE_WIDTH` (the source iterates
`j` from `row_start` and stores at index `j - row_start`, which is the same
indexing). -/
def tileBuffer (p : ℕ → ℕ → Color) (tpr TW TH tileIdx tj ti : ℕ) : Color :=
  p ((tileIdx / tpr) * TH + tj) ((tileIdx % tpr) * TW + ti)

/-- One store into the frame buffer, modelled as a pointwise update of a
total function `ℕ → ℕ → Color`. -/
def writePixel (fb : ℕ → ℕ → Color) (r c : ℕ) (v : Color) : ℕ → ℕ → Color :=
  fun r' c' => if r' = r ∧ c' = c then v else fb r' c'

/-- The inner reassembly loops of src/main.rs lines 94-101 for one tile:
write every slot of the tile's buffer to its absolute frame position. -/
def writeTile (p : ℕ → ℕ → Color) (tpr TW TH tileIdx : ℕ)
    (fb : ℕ → ℕ → Color) : ℕ → ℕ → Color :=
  (List.range TH).foldl
    (fun fb j =>
      (List.range TW).foldl
        (fun fb i =>
          writePixel fb ((tileIdx / tpr) * TH + j) ((tileIdx % tpr) * TW + i)
            (tileBuffer p tpr TW TH tileIdx j i))
        fb)
    fb

/-- The full reassembly of src/main.rs lines 92-102: fold all tiles' writes
over the zero-initialised frame buffer (`vec![vec![BLACK; ..]; ..]`). -/
def assembleFrame (p : ℕ → ℕ → Color) (W H TW TH : ℕ) : ℕ → ℕ → Color :=
  (List.range (numTiles W H TW TH)).foldl
    (fun fb tileIdx => writeTile p (tilesPerRow W TW) TW TH tileIdx fb)
    (fun _ _ => BLACK)

/-
NaN-propagation model for `Sphere::hit` (src/trace.rs lines 111-136).  An
IEEE `f64` is modelled as `Option ℝ` where `none` is NaN; every arithmetic
operation propagates NaN, `sqrt` of a negative value is NaN, every ordered
comparison involving NaN is false, and `partial_cmp` returns `none` when
either operand is NaN — exactly the behaviour the Rust code relies on.
Division maps a zero divisor to `none`; IEEE produces `±∞` (or NaN for
`0/0`) there, and since the range test `t < t_max && t > t_min` rejects `+∞`
and NaN alike for the bounds the program uses, collapsing the non-finite
quotients to `none` does not change the hit/no-hit outcome being modelled.
This model only tracks the accepted parameter `t`; the derived `HitRecord`
fields are functions of `t` and do not influence acceptance. -/
abbrev FloatN : Type := Option ℝ

noncomputable section

/-- NaN-propagating addition. -/
def addN : FloatN → FloatN → FloatN
  | some x, some y => some (x + y)
  | _, _ => none

/-- NaN-propagating subtraction. -/
def subN : FloatN → FloatN → FloatN
  | some x, some y => some (x - y)
  | _, _ => none

/-- NaN-propagating multiplication. -/
def mulN : FloatN → FloatN → FloatN
  | some x, some y => some (x * y)
  | _, _ => none

/-- NaN-propagating negation. -/
def negN : FloatN → FloatN
  | some x => some (-x)
  | none => none

/-- Division with NaN propagation; a zero divisor yields a non-finite IEEE
result, collapsed to `none` here (see the model note above). -/
def divN : FloatN → FloatN → FloatN
  | some x, some y => if y = 0 then none else some (x / y)
  | _, _ => none

/-- `f64::sqrt`: NaN on NaN or negative input. -/
def sqrtN : FloatN → FloatN
  | some x => if x < 0 then none else some (Real.sqrt x)
  | none => none

/-- `f64::partial_cmp`: `None` when either operand is NaN. -/
def cmpN : FloatN → FloatN → Option Ordering
  | some x, some y => some (compare x y)
  | _, _ => none

/-- IEEE `<` on possibly-NaN values: false when either operand is NaN. -/
def ltN : FloatN → FloatN → Bool
  | some x, some y => decide (x < y)
  | _, _ => false

/-- `is_in_range` from src/math.rs over the NaN model:
`t < t_max && t > t_min`. -/
def is_in_rangeN (t t_min t_max : FloatN) : Bool :=
  ltN t t_max && ltN t_min t

/-- `Vec3` with possibly-NaN components. -/
structure Vec3N where
  x : FloatN
  y : FloatN
  z : FloatN

/-- `Ray` with possibly-NaN components. -/
structure RayN where
  origin : Vec3N
  direction : Vec3N

/-- Componentwise subtraction on `Vec3N`. -/
def Vec3N.sub (u v : Vec3N) : Vec3N :=
  ⟨subN u.x v.x, subN u.y v.y, subN u.z v.z⟩

/-- `dot_product` over the NaN model. -/
def dotN (u v : Vec3N) : FloatN :=
  addN (addN (mulN u.x v.x) (mulN u.y v.y)) (mulN u.z v.z)

/-- `Vec3::length_squared` over the NaN model. -/
def Vec3N.length_squared (v : Vec3N) : FloatN :=
  addN (addN (mulN v.x v.x) (mulN v.y v.y)) (mulN v.z v.z)

/-- `Sphere` with possibly-NaN center and radius. -/
structure SphereN where
  center : Vec3N
  radius : FloatN

/-- The discriminant computed by `Sphere::hit` (src/trace.rs lines 113-117)
over the NaN model. -/
def SphereN.discriminant (s : SphereN) (ray : RayN) : FloatN :=
  let oc := ray.origin.sub s.center
  let a := ray.direction.length_squared
  let half_b := dotN oc ray.direction
  let c := subN oc.length_squared (mulN s.radius s.radius)
  subN (mulN half_b half_b) (mulN a c)

/-- `Sphere::hit` over the NaN model, tracking the accepted parameter `t`:
the `match discriminant.partial_cmp(&0.0)` of the source, with the
`Some(Ordering::Less)` and `None` arms both returning no hit. -/
def SphereN.hit (s : SphereN) (ray : RayN) (t_min t_max : FloatN) :
    Option FloatN :=
  let oc := ray.origin.sub s.center
  let a := ray.direction.length_squared
  let half_b := dotN oc ray.direction
  match cmpN (s.discriminant ray) (some 0) with
  | some .lt => none
  | none => none
  | _ =>
    let root := sqrtN (s.discriminant ray)
    let t_root1 := divN (subN (negN half_b) root) a
    let t_root2 := divN (addN (negN half_b) root) a
    if is_in_rangeN t_root1 t_min t_max then some t_root1
    else if is_in_rangeN t_root2 t_min t_max then some t_root2
    else none

end

/-
Helper lemmas about the vector algebra.
-/

@[simp]
theorem Vec3.neg_x (v : Vec3) : (-v).x = -v.x := rfl

@[simp]
theorem Vec3.neg_y (v : Vec3) : (-v).y = -v.y := rfl

@[simp]
theorem Vec3.neg_z (v : Vec3) : (-v).z = -v.z := rfl

theorem dot_product_neg_right (u v : Vec3) :
    dot_product u (-v) = -dot_product u v := by
  simp [dot_product]; ring

theorem Vec3.length_squared_nonneg (v : Vec3) : 0 ≤ v.length_squared := by
  have hx := mul_self_nonneg v.x
  have hy := mul_self_nonneg v.y
  have hz := mul_self_nonneg v.z
  unfold Vec3.length_squared
  linarith

theorem dot_product_self (v : Vec3) : dot_product v v = v.length_squared := rfl

@[simp]
theorem Sphere.calc_hit_t (s : Sphere) (t : ℝ) (r : Ray) :
    (s.calc_hit t r).t = t := rfl

/-- C7: `get_ray_color` with a zero depth budget returns exactly black for
every ray and every scene. -/
theorem c7_depth_zero_black (rnd : ℕ → ScatterRand) (ray : Ray)
    (world : HittableCollection) :
    get_ray_color rnd ray world 0 = BLACK := rfl

/-- C10: calling `hit` on the empty collection built by
`HittableCollection::new` returns `None` for every ray and every interval. -/
theorem c10_empty_collection_hit_none (r : Ray) (t_min t_max : WithTop ℝ) :
    HittableCollection.new.hit r t_min t_max = none := by
  simp [HittableCollection.new, HittableCollection.hit, hitLoop]

/-- C4 counterexample: `DiaelectriMaterial::new` does not fail on the
non-positive refractive index `-1`; it returns a dielectric material whose
`ref_idx` field is `-1` (with the albedo fixed to white). -/
theorem c4_counterexample :
    DiaelectriMaterial.new (-1) = Material.dielectric WHITE (-1) ∧
      (-1 : ℝ) ≤ 0 :=
  ⟨rfl, by norm_num⟩

/-- C4 (amended): `DiaelectriMaterial::new` performs no input validation at
all — for every `ref_idx`, including non-positive ones, it returns the
dielectric material with that `ref_idx` unchanged and a white albedo. -/
theorem c4_new_no_validation (ref_idx : ℝ) :
    DiaelectriMaterial.new ref_idx = Material.dielectric WHITE ref_idx := rfl

/-- C9: a `HitRecord` produced through `set_face_normal` has
`front_face = true` iff the ray direction and the outward normal have
negative dot product, and the stored normal always has non-positive dot
product with the ray direction. -/
theorem c9_face_normal (p : Point) (ray : Ray) (t : ℝ) (outward_normal : Vec3)
    (m : Material) :
    ((HitRecord.from_hit p ray t outward_normal m).front_face = true ↔
      dot_product ray.direction outward_normal < 0) ∧
    dot_product ray.direction
      (HitRecord.from_hit p ray t outward_normal m).normal ≤ 0 := by
  constructor
  · simp [HitRecord.from_hit]
  · by_cases hd : dot_product ray.direction outward_normal < 0
    · simp [HitRecord.from_hit, hd]
      exact le_of_lt hd
    · simp [HitRecord.from_hit, hd, dot_product_neg_right]
      push_neg at hd
      linarith

/-- C3: Lambertian scattering always returns a scattered ray, Dielectric
scattering always returns a scattered ray, and Metal scattering returns
`None` exactly when the fuzzed reflected direction has dot product `≤ 0`
with the stored normal. -/
theorem c3_scatter_absorption (albedoL albedoM albedoD : Color)
    (fuzziness ref_idx : ℝ) (ray : Ray) (hit : HitRecord) (rnd : ScatterRand) :
    ((Material.lambertian albedoL).scatter ray hit rnd).2.isSome = true ∧
    ((Material.dielectric albedoD ref_idx).scatter ray hit rnd).2.isSome = true ∧
    (((Material.metal albedoM fuzziness).scatter ray hit rnd).2 = none ↔
      dot_product
        (reflect_around_normal ray.direction hit.normal +
          lambertian_random_in_unit_sphere rnd.a rnd.z * fuzziness)
        hit.normal ≤ 0) := by
  refine ⟨rfl, rfl, ?_⟩
  by_cases hd : dot_product
      (reflect_around_normal ray.direction hit.normal +
        lambertian_random_in_unit_sphere rnd.a rnd.z * fuzziness)
      hit.normal > 0
  · simp [Material.scatter, hd]
    try linarith
  · simp [Material.scatter, hd]
    try { push_neg at hd; exact hd }

@[simp]
theorem Vec3.sub_x (u v : Vec3) : (u - v).x = u.x - v.x := rfl

@[simp]
theorem Vec3.sub_y (u v : Vec3) : (u - v).y = u.y - v.y := rfl

@[simp]
theorem Vec3.sub_z (u v : Vec3) : (u - v).z = u.z - v.z := rfl

/-- C8: for a positive depth budget, a ray on which the world reports no hit
over `(0.001, +∞)` receives the background gradient
`WHITE * (1 - t) + LIGHT_BLUE * t` with `t = 0.5 * (unit_direction.y + 1)`,
and `LIGHT_BLUE = (0.5, 0.7, 1.0)`; the value depends only on the
y-component of the normalised ray direction. -/
theorem c8_background_gradient (rnd : ℕ → ScatterRand) (ray : Ray)
    (world : HittableCollection) (depth : ℕ) (hdepth : 1 ≤ depth)
    (hmiss : world.hit ray ((0.001 : ℝ) : WithTop ℝ) ⊤ = none) :
    get_ray_color rnd ray world depth =
      WHITE * ((1 : ℝ) - (0.5 : ℝ) * ((to_unit_vector ray.direction).y + 1)) +
        LIGHT_BLUE * ((0.5 : ℝ) * ((to_unit_vector ray.direction).y + 1)) ∧
    LIGHT_BLUE = ⟨0.5, 0.7, 1⟩ := by
  obtain ⟨d, rfl⟩ : ∃ d, depth = d + 1 := ⟨depth - 1, by omega⟩
  refine ⟨?_, rfl⟩
  have hcomm : ((to_unit_vector ray.direction).y + 1) * (0.5 : ℝ) =
      (0.5 : ℝ) * ((to_unit_vector ray.direction).y + 1) := by ring
  simp only [get_ray_color, hmiss]
  rw [hcomm]

theorem sphere_root1_le_root2 (half_b root a : ℝ) (ha : 0 ≤ a)
    (hr : 0 ≤ root) : (-half_b - root) / a ≤ (-half_b + root) / a := by
  rcases eq_or_lt_of_le ha with h | h
  · rw [← h, div_zero, div_zero]
  · exact (div_le_div_iff_of_pos_right h).mpr (by linarith)

/-- C1: `Sphere::hit` computes the quadratic coefficients `a = D·D`,
`half_b = (O−C)·D`, `c = |O−C|² − r²`, returns `None` when the discriminant
`half_b² − a·c` is negative, and otherwise returns a hit at the smallest
root `t = (−half_b ∓ √discriminant)/a` lying strictly inside the open
interval `(t_min, t_max)`, or `None` when neither root lies strictly inside
it.  The named coefficient variables are fixed by defining equations so that
the statement spells out the claimed formulas. -/
theorem c1_sphere_hit (s : Sphere) (ray : Ray) (t_min t_max : WithTop ℝ)
    (a half_b c discriminant t_root1 t_root2 : ℝ)
    (ha : a = dot_product ray.direction ray.direction)
    (hb : half_b = dot_product (ray.origin - s.center) ray.direction)
    (hc : c = dot_product (ray.origin - s.center) (ray.origin - s.center) -
      s.radius * s.radius)
    (hdisc : discriminant = half_b * half_b - a * c)
    (ht1 : t_root1 = (-half_b - Real.sqrt discriminant) / a)
    (ht2 : t_root2 = (-half_b + Real.sqrt discriminant) / a) :
    (discriminant < 0 → s.hit ray t_min t_max = none) ∧
    (0 ≤ discriminant →
      (∀ h, s.hit ray t_min t_max = some h →
        is_in_range h.t t_min t_max = true ∧
        (h.t = t_root1 ∨ h.t = t_root2) ∧
        (∀ t', (t' = t_root1 ∨ t' = t_root2) →
          is_in_range t' t_min t_max = true → h.t ≤ t')) ∧
      (s.hit ray t_min t_max = none →
        is_in_range t_root1 t_min t_max = false ∧
        is_in_range t_root2 t_min t_max = false)) := by
  have ht12 : t_root1 ≤ t_root2 := by
    rw [ht1, ht2]
    exact sphere_root1_le_root2 _ _ _
      (ha ▸ dot_product_self ray.direction ▸ ray.direction.length_squared_nonneg)
      (Real.sqrt_nonneg _)
  have hunfold : s.hit ray t_min t_max =
      if discriminant < 0 then none
      else if is_in_range t_root1 t_min t_max then some (s.calc_hit t_root1 ray)
      else if is_in_range t_root2 t_min t_max then some (s.calc_hit t_root2 ray)
      else none := by
    simp only [Sphere.hit, ← dot_product_self]
    rw [← hb, ← ha, ← hc, ← hdisc, ← ht1, ← ht2]
  by_cases hneg : discriminant < 0
  · have hhit : s.hit ray t_min t_max = none := by rw [hunfold, if_pos hneg]
    exact ⟨fun _ => hhit, fun h0 => absurd hneg (not_lt.mpr h0)⟩
  · rw [if_neg hneg] at hunfold
    refine ⟨fun hlt => absurd hlt hneg, fun _ => ?_⟩
    rcases Bool.eq_false_or_eq_true (is_in_range t_root1 t_min t_max) with h1 | h1
    · rw [if_pos h1] at hunfold
      refine ⟨fun h hh => ?_, fun hnone => ?_⟩
      · rw [hunfold] at hh
        obtain rfl : s.calc_hit t_root1 ray = h := Option.some.inj hh
        rw [Sphere.calc_hit_t]
        refine ⟨h1, Or.inl rfl, ?_⟩
        rintro t' (rfl | rfl) _
        · exact le_refl _
        · exact ht12
      · rw [hunfold] at hnone
        cases hnone
    · rw [if_neg (by simp [h1])] at hunfold
      rcases Bool.eq_false_or_eq_true (is_in_range t_root2 t_min t_max) with h2 | h2
      · rw [if_pos h2] at hunfold
        refine ⟨fun h hh => ?_, fun hnone => ?_⟩
        · rw [hunfold] at hh
          obtain rfl : s.calc_hit t_root2 ray = h := Option.some.inj hh
          rw [Sphere.calc_hit_t]
          refine ⟨h2, Or.inr rfl, ?_⟩
          rintro t' (rfl | rfl) hin
          · rw [h1] at hin
            cases hin
          · exact le_refl _
        · rw [hunfold] at hnone
          cases hnone
      · rw [if_neg (by simp [h2])] at hunfold
        refine ⟨fun h hh => ?_, fun _ => ⟨h1, h2⟩⟩
        rw [hunfold] at hh
        cases hh

/-- C1 witness: a unit sphere at the origin and the ray from `(0,0,-3)`
along `+z` instantiate the coefficient equations with `a = 1`,
`half_b = -3`, `c = 8`, `discriminant = 1`, `t_root1 = 2`, `t_root2 = 4`. -/
theorem c1_sphere_hit_witness :
    ((1 : ℝ) < 0 →
      Sphere.hit ⟨⟨0, 0, 0⟩, 1, Material.lambertian WHITE⟩
        ⟨⟨0, 0, -3⟩, ⟨0, 0, 1⟩⟩ ((0.001 : ℝ) : WithTop ℝ) ⊤ = none) ∧
    ((0 : ℝ) ≤ 1 →
      (∀ h, Sphere.hit ⟨⟨0, 0, 0⟩, 1, Material.lambertian WHITE⟩
          ⟨⟨0, 0, -3⟩, ⟨0, 0, 1⟩⟩ ((0.001 : ℝ) : WithTop ℝ) ⊤ = some h →
        is_in_range h.t ((0.001 : ℝ) : WithTop ℝ) ⊤ = true ∧
        (h.t = 2 ∨ h.t = 4) ∧
        (∀ t', (t' = 2 ∨ t' = 4) →
          is_in_range t' ((0.001 : ℝ) : WithTop ℝ) ⊤ = true → h.t ≤ t')) ∧
      (Sphere.hit ⟨⟨0, 0, 0⟩, 1, Material.lambertian WHITE⟩
          ⟨⟨0, 0, -3⟩, ⟨0, 0, 1⟩⟩ ((0.001 : ℝ) : WithTop ℝ) ⊤ = none →
        is_in_range 2 ((0.001 : ℝ) : WithTop ℝ) ⊤ = false ∧
        is_in_range 4 ((0.001 : ℝ) : WithTop ℝ) ⊤ = false)) :=
  c1_sphere_hit ⟨⟨0, 0, 0⟩, 1, Material.lambertian WHITE⟩
    ⟨⟨0, 0, -3⟩, ⟨0, 0, 1⟩⟩ ((0.001 : ℝ) : WithTop ℝ) ⊤ 1 (-3) 8 1 2 4
    (by norm_num [dot_product]) (by norm_num [dot_product])
    (by norm_num [dot_product]) (by norm_num)
    (by norm_num [Real.sqrt_one]) (by norm_num [Real.sqrt_one])

/-- C6: when the discriminant computed by `Sphere::hit` is NaN, the
`partial_cmp` match rejects it and the routine reports no intersection;
moreover the interval test rejects a NaN parameter outright. -/
theorem c6_nan_discriminant (s : SphereN) (ray : RayN) (t_min t_max : FloatN)
    (hnan : s.discriminant ray = none) :
    SphereN.hit s ray t_min t_max = none ∧
    ∀ u v : FloatN, is_in_rangeN none u v = false := by
  constructor
  · simp only [SphereN.hit, hnan]
    rfl
  · intro u v
    cases u <;> cases v <;> rfl

/-- C6 witness: a ray whose direction has a NaN x-component makes every
quadratic coefficient and hence the discriminant NaN, and the sphere
reports no hit. -/
theorem c6_nan_discriminant_witness :
    SphereN.discriminant ⟨⟨some 0, some 0, some 0⟩, some 1⟩
      ⟨⟨some 0, some 0, some 0⟩, ⟨none, some 0, some 0⟩⟩ = none ∧
    (SphereN.hit ⟨⟨some 0, some 0, some 0⟩, some 1⟩
        ⟨⟨some 0, some 0, some 0⟩, ⟨none, some 0, some 0⟩⟩
        (some 0.001) none = none ∧
      ∀ u v : FloatN, is_in_rangeN none u v = false) :=
  ⟨rfl, c6_nan_discriminant ⟨⟨some 0, some 0, some 0⟩, some 1⟩
    ⟨⟨some 0, some 0, some 0⟩, ⟨none, some 0, some 0⟩⟩ (some 0.001) none rfl⟩

/-- C8 witness: the empty scene reports no hit, so a depth-1 ray pointing
along `+y` receives the background gradient. -/
theorem c8_background_gradient_witness :
    (1 : ℕ) ≤ 1 ∧
    HittableCollection.new.hit ⟨⟨0, 0, 0⟩, ⟨0, 1, 0⟩⟩
      ((0.001 : ℝ) : WithTop ℝ) ⊤ = none ∧
    (get_ray_color (fun _ => ⟨0, 0, 0⟩) ⟨⟨0, 0, 0⟩, ⟨0, 1, 0⟩⟩
        HittableCollection.new 1 =
      WHITE * ((1 : ℝ) -
          (0.5 : ℝ) * ((to_unit_vector (⟨0, 1, 0⟩ : Vec3)).y + 1)) +
        LIGHT_BLUE * ((0.5 : ℝ) * ((to_unit_vector (⟨0, 1, 0⟩ : Vec3)).y + 1)) ∧
      LIGHT_BLUE = ⟨0.5, 0.7, 1⟩) :=
  ⟨le_refl 1,
    by simp [HittableCollection.new, HittableCollection.hit, hitLoop],
    c8_background_gradient (fun _ => ⟨0, 0, 0⟩) ⟨⟨0, 0, 0⟩, ⟨0, 1, 0⟩⟩
      HittableCollection.new 1 (le_refl 1)
      (by simp [HittableCollection.new, HittableCollection.hit, hitLoop])⟩

/-
Machinery for C2: every hittable's `hit` obeys a contract (reported
parameters lie strictly inside the queried window, and shrinking the window
upper bound filters hits by their parameter), the collection loop is proved
equal to a compositional specification `bestHit`, and the closest-hit
property follows.
-/

noncomputable section

/-- `Sphere::hit`'s discriminant, with the intermediate `let`s of the source
expanded. -/
def Sphere.disc (s : Sphere) (ray : Ray) : ℝ :=
  dot_product (ray.origin - s.center) ray.direction *
      dot_product (ray.origin - s.center) ray.direction -
    ray.direction.length_squared *
      ((ray.origin - s.center).length_squared - s.radius * s.radius)

/-- The first root tested by `Sphere::hit`. -/
def Sphere.tRoot1 (s : Sphere) (ray : Ray) : ℝ :=
  (-(dot_product (ray.origin - s.center) ray.direction) -
      Real.sqrt (s.disc ray)) / ray.direction.length_squared

/-- The second root tested by `Sphere::hit`. -/
def Sphere.tRoot2 (s : Sphere) (ray : Ray) : ℝ :=
  (-(dot_product (ray.origin - s.center) ray.direction) +
      Real.sqrt (s.disc ray)) / ray.direction.length_squared

theorem Sphere.hit_cases (s : Sphere) (ray : Ray) (t_min t_max : WithTop ℝ) :
    s.hit ray t_min t_max =
      if s.disc ray < 0 then none
      else if is_in_range (s.tRoot1 ray) t_min t_max then
        some (s.calc_hit (s.tRoot1 ray) ray)
      else if is_in_range (s.tRoot2 ray) t_min t_max then
        some (s.calc_hit (s.tRoot2 ray) ray)
      else none := rfl

theorem Sphere.tRoot1_le_tRoot2 (s : Sphere) (ray : Ray) :
    s.tRoot1 ray ≤ s.tRoot2 ray :=
  sphere_root1_le_root2 _ _ _ ray.direction.length_squared_nonneg
    (Real.sqrt_nonneg _)

theorem is_in_range_true_iff (t : ℝ) (t_min t_max : WithTop ℝ) :
    is_in_range t t_min t_max = true ↔
      ((t : WithTop ℝ) < t_max ∧ t_min < (t : WithTop ℝ)) := by
  simp [is_in_range]

theorem is_in_range_false_iff (t : ℝ) (t_min t_max : WithTop ℝ) :
    is_in_range t t_min t_max = false ↔
      ¬((t : WithTop ℝ) < t_max ∧ t_min < (t : WithTop ℝ)) := by
  rw [← Bool.not_eq_true, is_in_range_true_iff]

theorem is_in_range_false_mono {t : ℝ} {t_min t_max t_max' : WithTop ℝ}
    (hle : t_max' ≤ t_max) (hf : is_in_range t t_min t_max = false) :
    is_in_range t t_min t_max' = false := by
  rw [is_in_range_false_iff] at hf ⊢
  intro ⟨h1, h2⟩
  exact hf ⟨lt_of_lt_of_le h1 hle, h2⟩

theorem is_in_range_shrink_true {t : ℝ} {t_min t_max t_max' : WithTop ℝ}
    (ht : is_in_range t t_min t_max = true) (hlt : (t : WithTop ℝ) < t_max') :
    is_in_range t t_min t_max' = true := by
  rw [is_in_range_true_iff] at ht ⊢
  exact ⟨hlt, ht.2⟩

theorem is_in_range_false_of_not_lt {t : ℝ} {t_min t_max' : WithTop ℝ}
    (h : ¬((t : WithTop ℝ) < t_max')) :
    is_in_range t t_min t_max' = false := by
  rw [is_in_range_false_iff]
  exact fun hc => h hc.1

/-- The behavioural contract obeyed by every `Hittable::hit` implementation:
a reported hit lies strictly inside the queried window, and lowering the
window's upper bound keeps exactly the hits whose parameter stays below the
new bound. -/
structure HitContract
    (f : Ray → WithTop ℝ → WithTop ℝ → Option HitRecord) : Prop where
  bounds : ∀ r t_min t_max h, f r t_min t_max = some h →
    ((h.t : ℝ) : WithTop ℝ) < t_max ∧ t_min < ((h.t : ℝ) : WithTop ℝ)
  shrink_none : ∀ r t_min t_max t_max', t_max' ≤ t_max →
    f r t_min t_max = none → f r t_min t_max' = none
  shrink_some : ∀ r t_min t_max t_max' h, t_max' ≤ t_max →
    f r t_min t_max = some h →
    ((((h.t : ℝ) : WithTop ℝ) < t_max' → f r t_min t_max' = some h) ∧
      (¬(((h.t : ℝ) : WithTop ℝ) < t_max') → f r t_min t_max' = none))

theorem sphere_hitContract (s : Sphere) : HitContract (s.hit) := by
  constructor
  · intro r t_min t_max h hh
    rw [Sphere.hit_cases] at hh
    by_cases hd : s.disc r < 0
    · rw [if_pos hd] at hh; cases hh
    · rw [if_neg hd] at hh
      rcases Bool.eq_false_or_eq_true (is_in_range (s.tRoot1 r) t_min t_max)
        with e1 | e1
      · rw [if_pos e1] at hh
        obtain rfl : s.calc_hit (s.tRoot1 r) r = h := Option.some.inj hh
        rw [Sphere.calc_hit_t]
        exact (is_in_range_true_iff _ _ _).mp e1
      · rw [if_neg (by simp [e1])] at hh
        rcases Bool.eq_false_or_eq_true (is_in_range (s.tRoot2 r) t_min t_max)
          with e2 | e2
        · rw [if_pos e2] at hh
          obtain rfl : s.calc_hit (s.tRoot2 r) r = h := Option.some.inj hh
          rw [Sphere.calc_hit_t]
          exact (is_in_range_true_iff _ _ _).mp e2
        · rw [if_neg (by simp [e2])] at hh; cases hh
  · intro r t_min t_max t_max' hle hnone
    rw [Sphere.hit_cases] at hnone ⊢
    by_cases hd : s.disc r < 0
    · rw [if_pos hd]
    · rw [if_neg hd] at hnone ⊢
      rcases Bool.eq_false_or_eq_true (is_in_range (s.tRoot1 r) t_min t_max)
        with e1 | e1
      · rw [if_pos e1] at hnone; cases hnone
      · rw [if_neg (by simp [e1])] at hnone
        rcases Bool.eq_false_or_eq_true (is_in_range (s.tRoot2 r) t_min t_max)
          with e2 | e2
        · rw [if_pos e2] at hnone; cases hnone
        · rw [if_neg (by simp [is_in_range_false_mono hle e1]),
            if_neg (by simp [is_in_range_false_mono hle e2])]
  · intro r t_min t_max t_max' h hle hsome
    rw [Sphere.hit_cases] at hsome
    by_cases hd : s.disc r < 0
    · rw [if_pos hd] at hsome; cases hsome
    · rw [if_neg hd] at hsome
      rcases Bool.eq_false_or_eq_true (is_in_range (s.tRoot1 r) t_min t_max)
        with e1 | e1
      · rw [if_pos e1] at hsome
        obtain rfl : s.calc_hit (s.tRoot1 r) r = h := Option.some.inj hsome
        rw [Sphere.calc_hit_t]
        constructor
        · intro hlt
          rw [Sphere.hit_cases, if_neg hd, if_pos (is_in_range_shrink_true e1 hlt)]
        · intro hnlt
          have h2 : ¬(((s.tRoot2 r : ℝ) : WithTop ℝ) < t_max') := fun hc =>
            hnlt (lt_of_le_of_lt
              (WithTop.coe_le_coe.mpr (s.tRoot1_le_tRoot2 r)) hc)
          rw [Sphere.hit_cases, if_neg hd,
            if_neg (by simp [is_in_range_false_of_not_lt hnlt]),
            if_neg (by simp [is_in_range_false_of_not_lt h2])]
      · rw [if_neg (by simp [e1])] at hsome
        rcases Bool.eq_false_or_eq_true (is_in_range (s.tRoot2 r) t_min t_max)
          with e2 | e2
        · rw [if_pos e2] at hsome
          obtain rfl : s.calc_hit (s.tRoot2 r) r = h := Option.some.inj hsome
          rw [Sphere.calc_hit_t]
          constructor
          · intro hlt
            rw [Sphere.hit_cases, if_neg hd,
              if_neg (by simp [is_in_range_false_mono hle e1]),
              if_pos (is_in_range_shrink_true e2 hlt)]
          · intro hnlt
            rw [Sphere.hit_cases, if_neg hd,
              if_neg (by simp [is_in_range_false_mono hle e1]),
              if_neg (by simp [is_in_range_false_of_not_lt hnlt])]
        · rw [if_neg (by simp [e2])] at hsome; cases hsome

end

noncomputable section

/-- Reference semantics for the collection loop: the closest full-interval
member hit, with the earlier member winning ties.  Proved equal to
`hitLoop` below (given the members' contracts); this is a proof device, not
a source function. -/
def bestHit : List Hittable → Ray → WithTop ℝ → WithTop ℝ → Option HitRecord
  | [], _, _, _ => none
  | m :: rest, r, t_min, t_max =>
    match m.hit r t_min t_max, bestHit rest r t_min t_max with
    | none, o => o
    | some h, none => some h
    | some h, some h' => if h'.t < h.t then some h' else some h

theorem bestHit_contract (hs : List Hittable)
    (hc : ∀ m ∈ hs, HitContract m.hit) : HitContract (bestHit hs) := by
  induction hs with
  | nil =>
    constructor
    · intro r t_min t_max h hh; cases hh
    · intro r t_min t_max t_max' _ _; rfl
    · intro r t_min t_max t_max' h _ hh; cases hh
  | cons m rest ih =>
    have hm := hc m (List.mem_cons_self m rest)
    have hrest := ih (fun m' hm' => hc m' (List.mem_cons_of_mem _ hm'))
    constructor
    · intro r t_min t_max h hh
      rcases hmo : m.hit r t_min t_max with _ | h1 <;>
        rcases hbo : bestHit rest r t_min t_max with _ | h2 <;>
          simp only [bestHit, hmo, hbo] at hh
      · exact absurd hh (by simp)
      · obtain rfl : h2 = h := Option.some.inj hh
        exact hrest.bounds _ _ _ _ hbo
      · obtain rfl : h1 = h := Option.some.inj hh
        exact hm.bounds _ _ _ _ hmo
      · by_cases hcmp : h2.t < h1.t
        · rw [if_pos hcmp] at hh
          obtain rfl : h2 = h := Option.some.inj hh
          exact hrest.bounds _ _ _ _ hbo
        · rw [if_neg hcmp] at hh
          obtain rfl : h1 = h := Option.some.inj hh
          exact hm.bounds _ _ _ _ hmo
    · intro r t_min t_max t_max' hle hnone
      rcases hmo : m.hit r t_min t_max with _ | h1 <;>
        rcases hbo : bestHit rest r t_min t_max with _ | h2 <;>
          simp only [bestHit, hmo, hbo] at hnone
      · simp only [bestHit, hm.shrink_none _ _ _ _ hle hmo,
          hrest.shrink_none _ _ _ _ hle hbo]
      · cases hnone
      · cases hnone
      · by_cases hcmp : h2.t < h1.t <;> simp [hcmp] at hnone
    · intro r t_min t_max t_max' h hle hsome
      rcases hmo : m.hit r t_min t_max with _ | h1 <;>
        rcases hbo : bestHit rest r t_min t_max with _ | h2 <;>
          simp only [bestHit, hmo, hbo] at hsome
      · cases hsome
      · obtain rfl : h2 = h := Option.some.inj hsome
        have hmn := hm.shrink_none _ _ _ _ hle hmo
        have hr := hrest.shrink_some _ _ _ _ _ hle hbo
        constructor
        · intro hlt
          simp only [bestHit, hmn, hr.1 hlt]
        · intro hnlt
          simp only [bestHit, hmn, hr.2 hnlt]
      · obtain rfl : h1 = h := Option.some.inj hsome
        have hrn := hrest.shrink_none _ _ _ _ hle hbo
        have hmsh := hm.shrink_some _ _ _ _ _ hle hmo
        constructor
        · intro hlt
          simp only [bestHit, hmsh.1 hlt, hrn]
        · intro hnlt
          simp only [bestHit, hmsh.2 hnlt, hrn]
      · have hmsh := hm.shrink_some _ _ _ _ _ hle hmo
        have hrsh := hrest.shrink_some _ _ _ _ _ hle hbo
        by_cases hcmp : h2.t < h1.t
        · rw [if_pos hcmp] at hsome
          obtain rfl : h2 = h := Option.some.inj hsome
          constructor
          · intro hlt
            have hr2 := hrsh.1 hlt
            by_cases hlt1 : ((h1.t : ℝ) : WithTop ℝ) < t_max'
            · simp only [bestHit, hmsh.1 hlt1, hr2, if_pos hcmp]
            · simp only [bestHit, hmsh.2 hlt1, hr2]
          · intro hnlt
            have hn1 : ¬(((h1.t : ℝ) : WithTop ℝ) < t_max') := fun hc =>
              hnlt (lt_trans (WithTop.coe_lt_coe.mpr hcmp) hc)
            simp only [bestHit, hmsh.2 hn1, hrsh.2 hnlt]
        · rw [if_neg hcmp] at hsome
          obtain rfl : h1 = h := Option.some.inj hsome
          have hle12 : h1.t ≤ h2.t := le_of_not_lt hcmp
          constructor
          · intro hlt
            by_cases hlt2 : ((h2.t : ℝ) : WithTop ℝ) < t_max'
            · simp only [bestHit, hmsh.1 hlt, hrsh.1 hlt2, if_neg hcmp]
            · simp only [bestHit, hmsh.1 hlt, hrsh.2 hlt2]
          · intro hnlt
            have hn2 : ¬(((h2.t : ℝ) : WithTop ℝ) < t_max') := fun hc =>
              hnlt (lt_of_le_of_lt (WithTop.coe_le_coe.mpr hle12) hc)
            simp only [bestHit, hmsh.2 hnlt, hrsh.2 hn2]

end

theorem hitLoop_eq_bestHit (r : Ray) (t_min : WithTop ℝ) :
    ∀ (hs : List Hittable), (∀ m ∈ hs, HitContract m.hit) →
      ∀ (cur : WithTop ℝ) (acc : Option HitRecord),
        hitLoop hs r t_min cur acc =
          (match bestHit hs r t_min cur with
            | some h => some h
            | none => acc) := by
  intro hs
  induction hs with
  | nil =>
    intro _ cur acc
    simp [hitLoop, bestHit]
  | cons m rest ih =>
    intro hc cur acc
    have hm := hc m (List.mem_cons_self m rest)
    have hrest := fun m' hm' => hc m' (List.mem_cons_of_mem _ hm')
    have hbc := bestHit_contract rest hrest
    rcases hmo : m.hit r t_min cur with _ | h1
    · simp only [hitLoop, hmo]
      rw [ih hrest cur acc]
      simp only [bestHit, hmo]
    · simp only [hitLoop, hmo]
      rw [ih hrest ((h1.t : ℝ) : WithTop ℝ) (some h1)]
      have hlt1 : ((h1.t : ℝ) : WithTop ℝ) ≤ cur :=
        le_of_lt (hm.bounds _ _ _ _ hmo).1
      rcases hbo : bestHit rest r t_min cur with _ | h2
      · rw [hbc.shrink_none _ _ _ _ hlt1 hbo]
        simp only [bestHit, hmo, hbo]
      · by_cases hcmp : h2.t < h1.t
        · rw [(hbc.shrink_some _ _ _ _ _ hlt1 hbo).1
            (WithTop.coe_lt_coe.mpr hcmp)]
          simp only [bestHit, hmo, hbo, if_pos hcmp]
        · rw [(hbc.shrink_some _ _ _ _ _ hlt1 hbo).2
            (fun hcc => hcmp (WithTop.coe_lt_coe.mp hcc))]
          simp only [bestHit, hmo, hbo, if_neg hcmp]

theorem hitContract_congr (f g : Ray → WithTop ℝ → WithTop ℝ → Option HitRecord)
    (hfg : ∀ r a b, f r a b = g r a b) (hf : HitContract f) : HitContract g := by
  constructor
  · intro r a b h hh
    exact hf.bounds r a b h (by rw [hfg]; exact hh)
  · intro r a b b' hle hnone
    rw [← hfg]
    exact hf.shrink_none r a b b' hle (by rw [hfg]; exact hnone)
  · intro r a b b' h hle hsome
    have hsh := hf.shrink_some r a b b' h hle (by rw [hfg]; exact hsome)
    exact ⟨fun hlt => by rw [← hfg]; exact hsh.1 hlt,
      fun hnlt => by rw [← hfg]; exact hsh.2 hnlt⟩

theorem collection_contract_of_members (hs : List Hittable)
    (hmem : ∀ m ∈ hs, HitContract m.hit) :
    HitContract ((Hittable.collection hs).hit) := by
  refine hitContract_congr (bestHit hs) _ ?_ (bestHit_contract hs hmem)
  intro r a b
  have h1 : Hittable.hit (.collection hs) r a b = hitLoop hs r a b none := by
    simp [Hittable.hit]
  rw [h1, hitLoop_eq_bestHit r a hs hmem b none]
  cases bestHit hs r a b <;> rfl

theorem hittable_hitContract : ∀ (m : Hittable), HitContract m.hit
  | .sphere s =>
    hitContract_congr (Sphere.hit s) _ (fun r a b => by simp [Hittable.hit])
      (sphere_hitContract s)
  | .collection hs =>
    collection_contract_of_members hs (fun m hm => hittable_hitContract m)
termination_by m => sizeOf m
decreasing_by
  have hsz := List.sizeOf_lt_of_mem hm
  simp only [Hittable.collection.sizeOf_spec]
  omega

theorem bestHit_none_iff (hs : List Hittable) (r : Ray)
    (t_min t_max : WithTop ℝ) :
    bestHit hs r t_min t_max = none ↔
      ∀ m ∈ hs, m.hit r t_min t_max = none := by
  induction hs with
  | nil => simp [bestHit]
  | cons m rest ih =>
    rcases hmo : m.hit r t_min t_max with _ | h1 <;>
      rcases hbo : bestHit rest r t_min t_max with _ | h2 <;>
        simp only [bestHit, hmo, hbo]
    · simp only [List.forall_mem_cons]
      exact iff_of_true trivial ⟨hmo, ih.mp hbo⟩
    · refine iff_of_false (by simp) (fun hall => ?_)
      rw [ih.mpr (List.forall_mem_cons.mp hall).2] at hbo
      cases hbo
    · refine iff_of_false (by simp) (fun hall => ?_)
      rw [(List.forall_mem_cons.mp hall).1] at hmo
      cases hmo
    · refine iff_of_false ?_ (fun hall => ?_)
      · by_cases hcmp : h2.t < h1.t <;> simp [hcmp]
      · rw [(List.forall_mem_cons.mp hall).1] at hmo
        cases hmo

theorem bestHit_some_mem (r : Ray) (t_min t_max : WithTop ℝ) (h : HitRecord) :
    ∀ hs, bestHit hs r t_min t_max = some h →
      ∃ m ∈ hs, m.hit r t_min t_max = some h := by
  intro hs
  induction hs with
  | nil => intro hh; cases hh
  | cons m rest ih =>
    intro hh
    rcases hmo : m.hit r t_min t_max with _ | h1 <;>
      rcases hbo : bestHit rest r t_min t_max with _ | h2 <;>
        simp only [bestHit, hmo, hbo] at hh
    · cases hh
    · obtain rfl : h2 = h := Option.some.inj hh
      obtain ⟨m', hm', hm'h⟩ := ih hbo
      exact ⟨m', List.mem_cons_of_mem _ hm', hm'h⟩
    · obtain rfl : h1 = h := Option.some.inj hh
      exact ⟨m, List.mem_cons_self m rest, hmo⟩
    · by_cases hcmp : h2.t < h1.t
      · rw [if_pos hcmp] at hh
        obtain rfl : h2 = h := Option.some.inj hh
        obtain ⟨m', hm', hm'h⟩ := ih hbo
        exact ⟨m', List.mem_cons_of_mem _ hm', hm'h⟩
      · rw [if_neg hcmp] at hh
        obtain rfl : h1 = h := Option.some.inj hh
        exact ⟨m, List.mem_cons_self m rest, hmo⟩

theorem bestHit_some_min (r : Ray) (t_min t_max : WithTop ℝ) :
    ∀ hs h, bestHit hs r t_min t_max = some h →
      ∀ m ∈ hs, ∀ h', m.hit r t_min t_max = some h' → h.t ≤ h'.t := by
  intro hs
  induction hs with
  | nil => intro h hh; cases hh
  | cons m rest ih =>
    intro h hh m' hm' h' hm'h
    rcases hmo : m.hit r t_min t_max with _ | h1 <;>
      rcases hbo : bestHit rest r t_min t_max with _ | h2 <;>
        simp only [bestHit, hmo, hbo] at hh
    · cases hh
    · obtain rfl : h2 = h := Option.some.inj hh
      rcases List.mem_cons.mp hm' with rfl | hm''
      · rw [hm'h] at hmo; cases hmo
      · exact ih h2 hbo m' hm'' h' hm'h
    · obtain rfl : h1 = h := Option.some.inj hh
      rcases List.mem_cons.mp hm' with rfl | hm''
      · rw [hm'h] at hmo
        obtain rfl : h' = h1 := Option.some.inj hmo
        exact le_refl _
      · rw [(bestHit_none_iff rest r t_min t_max).mp hbo m' hm''] at hm'h
        cases hm'h
    · by_cases hcmp : h2.t < h1.t
      · rw [if_pos hcmp] at hh
        obtain rfl : h2 = h := Option.some.inj hh
        rcases List.mem_cons.mp hm' with rfl | hm''
        · rw [hm'h] at hmo
          obtain rfl : h' = h1 := Option.some.inj hmo
          exact le_of_lt hcmp
        · exact ih h2 hbo m' hm'' h' hm'h
      · rw [if_neg hcmp] at hh
        obtain rfl : h1 = h := Option.some.inj hh
        rcases List.mem_cons.mp hm' with rfl | hm''
        · rw [hm'h] at hmo
          obtain rfl : h' = h1 := Option.some.inj hmo
          exact le_refl _
        · exact le_trans (le_of_not_lt hcmp) (ih h2 hbo m' hm'' h' hm'h)

/-- C2: for every collection of hittables, every ray, and every interval,
`HittableCollection::hit` returns `None` exactly when no member reports a
hit on the full interval, and otherwise returns a hit that is some member's
full-interval hit and whose `t` is the minimum over all member hits inside
`(t_min, t_max)`. -/
theorem c2_collection_closest_hit (c : HittableCollection) (r : Ray)
    (t_min t_max : WithTop ℝ) :
    (c.hit r t_min t_max = none ↔
      ∀ m ∈ c.hittables, m.hit r t_min t_max = none) ∧
    (∀ h, c.hit r t_min t_max = some h →
      (∃ m ∈ c.hittables, m.hit r t_min t_max = some h) ∧
      (∀ m ∈ c.hittables, ∀ h', m.hit r t_min t_max = some h' →
        h.t ≤ h'.t)) := by
  have hmem : ∀ m ∈ c.hittables, HitContract m.hit :=
    fun m _ => hittable_hitContract m
  have heq : c.hit r t_min t_max = bestHit c.hittables r t_min t_max := by
    show hitLoop c.hittables r t_min t_max none = _
    rw [hitLoop_eq_bestHit r t_min c.hittables hmem t_max none]
    cases bestHit c.hittables r t_min t_max <;> rfl
  rw [heq]
  exact ⟨bestHit_none_iff c.hittables r t_min t_max,
    fun h hh => ⟨bestHit_some_mem r t_min t_max h c.hittables hh,
      bestHit_some_min r t_min t_max c.hittables h hh⟩⟩

/-- C2 witness: the closest-hit characterisation instantiated at a
one-sphere collection and a concrete ray and interval. -/
theorem c2_collection_closest_hit_witness :
    (HittableCollection.hit
        ⟨[Hittable.sphere ⟨⟨0, 0, 0⟩, 1, Material.lambertian WHITE⟩]⟩
        ⟨⟨0, 0, -3⟩, ⟨0, 0, 1⟩⟩ ((0.001 : ℝ) : WithTop ℝ) ⊤ = none ↔
      ∀ m ∈ [Hittable.sphere ⟨⟨0, 0, 0⟩, 1, Material.lambertian WHITE⟩],
        m.hit ⟨⟨0, 0, -3⟩, ⟨0, 0, 1⟩⟩ ((0.001 : ℝ) : WithTop ℝ) ⊤ = none) ∧
    (∀ h, HittableCollection.hit
        ⟨[Hittable.sphere ⟨⟨0, 0, 0⟩, 1, Material.lambertian WHITE⟩]⟩
        ⟨⟨0, 0, -3⟩, ⟨0, 0, 1⟩⟩ ((0.001 : ℝ) : WithTop ℝ) ⊤ = some h →
      (∃ m ∈ [Hittable.sphere ⟨⟨0, 0, 0⟩, 1, Material.lambertian WHITE⟩],
        m.hit ⟨⟨0, 0, -3⟩, ⟨0, 0, 1⟩⟩ ((0.001 : ℝ) : WithTop ℝ) ⊤ = some h) ∧
      (∀ m ∈ [Hittable.sphere ⟨⟨0, 0, 0⟩, 1, Material.lambertian WHITE⟩],
        ∀ h', m.hit ⟨⟨0, 0, -3⟩, ⟨0, 0, 1⟩⟩ ((0.001 : ℝ) : WithTop ℝ) ⊤ =
          some h' → h.t ≤ h'.t)) :=
  c2_collection_closest_hit
    ⟨[Hittable.sphere ⟨⟨0, 0, 0⟩, 1, Material.lambertian WHITE⟩]⟩
    ⟨⟨0, 0, -3⟩, ⟨0, 0, 1⟩⟩ ((0.001 : ℝ) : WithTop ℝ) ⊤

/-
Machinery for C5: characterise the frame-buffer folds and the tile index
arithmetic.
-/

theorem nat_decomp_div (A B n : ℕ) (hn : 0 < n) (hB : B < n) :
    (A * n + B) / n = A ∧ (A * n + B) % n = B := by
  constructor
  · rw [mul_comm, Nat.mul_add_div hn, Nat.div_eq_of_lt hB, add_zero]
  · rw [mul_comm, Nat.mul_add_mod, Nat.mod_eq_of_lt hB]

theorem nat_mul_add_lt (A B rows n : ℕ) (hA : A < rows) (hB : B < n) :
    A * n + B < rows * n :=
  calc A * n + B < A * n + n := by omega
    _ = (A + 1) * n := by ring
    _ ≤ rows * n := Nat.mul_le_mul_right n hA

theorem numTiles_eq {W H TW TH : ℕ} (hTW : TW ∣ W) (hTH : TH ∣ H) :
    numTiles W H TW TH = tilesPerRow W TW * (H / TH) := by
  unfold numTiles tilesPerRow
  rw [← Nat.div_mul_div_comm hTW hTH]

theorem innerFold_eq (v : ℕ → Color) (row colStart : ℕ) :
    ∀ (n : ℕ) (fb : ℕ → ℕ → Color) (r c : ℕ),
      ((List.range n).foldl
        (fun fb i => writePixel fb row (colStart + i) (v i)) fb) r c =
      if r = row ∧ colStart ≤ c ∧ c < colStart + n then v (c - colStart)
      else fb r c := by
  intro n
  induction n with
  | zero =>
    intro fb r c
    rw [List.range_zero, List.foldl_nil, if_neg (by omega)]
  | succ n ih =>
    intro fb r c
    rw [List.range_succ, List.foldl_append, List.foldl_cons, List.foldl_nil]
    simp only [writePixel]
    by_cases hlast : r = row ∧ c = colStart + n
    · rw [if_pos hlast, if_pos (by omega)]
      have hcn : c - colStart = n := by omega
      rw [hcn]
    · rw [if_neg hlast, ih fb r c]
      by_cases hc1 : r = row ∧ colStart ≤ c ∧ c < colStart + (n + 1)
      · have hne : c ≠ colStart + n := fun he => hlast ⟨hc1.1, he⟩
        have hc0 : r = row ∧ colStart ≤ c ∧ c < colStart + n :=
          ⟨hc1.1, hc1.2.1, by omega⟩
        rw [if_pos hc0, if_pos hc1]
      · have hc0 : ¬(r = row ∧ colStart ≤ c ∧ c < colStart + n) :=
          fun hcc => hc1 ⟨hcc.1, hcc.2.1, by omega⟩
        rw [if_neg hc0, if_neg hc1]

theorem doubleFold_eq (v : ℕ → ℕ → Color) (rowStart colStart TW : ℕ) :
    ∀ (n : ℕ) (fb : ℕ → ℕ → Color) (r c : ℕ),
      ((List.range n).foldl
        (fun fb j => (List.range TW).foldl
          (fun fb i => writePixel fb (rowStart + j) (colStart + i) (v j i))
          fb) fb) r c =
      if rowStart ≤ r ∧ r < rowStart + n ∧ colStart ≤ c ∧ c < colStart + TW
      then v (r - rowStart) (c - colStart) else fb r c := by
  intro n
  induction n with
  | zero =>
    intro fb r c
    rw [List.range_zero, List.foldl_nil, if_neg (by omega)]
  | succ n ih =>
    intro fb r c
    rw [List.range_succ, List.foldl_append, List.foldl_cons, List.foldl_nil]
    rw [innerFold_eq (v n) (rowStart + n) colStart TW _ r c, ih fb r c]
    by_cases hlast : r = rowStart + n ∧ colStart ≤ c ∧ c < colStart + TW
    · rw [if_pos hlast,
        if_pos (show rowStart ≤ r ∧ r < rowStart + (n + 1) ∧ colStart ≤ c ∧
          c < colStart + TW from ⟨by omega, by omega, hlast.2.1, hlast.2.2⟩)]
      have hrn : r - rowStart = n := by omega
      rw [hrn]
    · by_cases hc1 : rowStart ≤ r ∧ r < rowStart + (n + 1) ∧ colStart ≤ c ∧
          c < colStart + TW
      · have hne : r ≠ rowStart + n :=
          fun he => hlast ⟨he, hc1.2.2.1, hc1.2.2.2⟩
        have hc0 : rowStart ≤ r ∧ r < rowStart + n ∧ colStart ≤ c ∧
            c < colStart + TW := ⟨hc1.1, by omega, hc1.2.2.1, hc1.2.2.2⟩
        rw [if_neg hlast, if_pos hc0, if_pos hc1]
      · have hc0 : ¬(rowStart ≤ r ∧ r < rowStart + n ∧ colStart ≤ c ∧
            c < colStart + TW) :=
          fun hcc => hc1 ⟨hcc.1, by omega, hcc.2.2.1, hcc.2.2.2⟩
        rw [if_neg hlast, if_neg hc0, if_neg hc1]

theorem writeTile_eq (p : ℕ → ℕ → Color) (tpr TW TH t : ℕ)
    (fb : ℕ → ℕ → Color) (r c : ℕ) :
    writeTile p tpr TW TH t fb r c =
      if (t / tpr) * TH ≤ r ∧ r < (t / tpr) * TH + TH ∧
          (t % tpr) * TW ≤ c ∧ c < (t % tpr) * TW + TW
      then p r c else fb r c := by
  unfold writeTile
  rw [doubleFold_eq (tileBuffer p tpr TW TH t) ((t / tpr) * TH)
    ((t % tpr) * TW) TW TH fb r c]
  by_cases hcov : (t / tpr) * TH ≤ r ∧ r < (t / tpr) * TH + TH ∧
      (t % tpr) * TW ≤ c ∧ c < (t % tpr) * TW + TW
  · rw [if_pos hcov, if_pos hcov]
    unfold tileBuffer
    have h1 : (t / tpr) * TH + (r - (t / tpr) * TH) = r := by omega
    have h2 : (t % tpr) * TW + (c - (t % tpr) * TW) = c := by omega
    rw [h1, h2]
  · rw [if_neg hcov, if_neg hcov]

theorem tilesFold_covered (p : ℕ → ℕ → Color) (tpr TW TH : ℕ) :
    ∀ (n : ℕ) (fb : ℕ → ℕ → Color) (r c t0 : ℕ), t0 < n →
      ((t0 / tpr) * TH ≤ r ∧ r < (t0 / tpr) * TH + TH ∧
        (t0 % tpr) * TW ≤ c ∧ c < (t0 % tpr) * TW + TW) →
      ((List.range n).foldl (fun fb t => writeTile p tpr TW TH t fb) fb) r c =
        p r c := by
  intro n
  induction n with
  | zero =>
    intro fb r c t0 ht0 _
    exact absurd ht0 (Nat.not_lt_zero _)
  | succ n ih =>
    intro fb r c t0 ht0 hcov
    rw [List.range_succ, List.foldl_append, List.foldl_cons, List.foldl_nil]
    rw [writeTile_eq]
    by_cases hc : (n / tpr) * TH ≤ r ∧ r < (n / tpr) * TH + TH ∧
        (n % tpr) * TW ≤ c ∧ c < (n % tpr) * TW + TW
    · rw [if_pos hc]
    · rw [if_neg hc]
      have hne : t0 ≠ n := fun he => hc (he ▸ hcov)
      exact ih fb r c t0 (by omega) hcov

/-- C5: when the tile dimensions divide the image dimensions evenly, the
reassembly map `(tile_idx, j, i) ↦ ((tile_idx / tiles_per_row) * TILE_HEIGHT
+ j, (tile_idx mod tiles_per_row) * TILE_WIDTH + i)` sends tile-local slots
into the pixel grid, every grid pixel has exactly one tile-local preimage
(each frame-buffer pixel is written exactly once), and the assembled frame
holds at each pixel exactly the averaged sample color computed for that
absolute position. -/
theorem c5_tiling_bijection (p : ℕ → ℕ → Color) (W H TW TH : ℕ)
    (hTW : TW ∣ W) (hTH : TH ∣ H) (hTWpos : 0 < TW) (hTHpos : 0 < TH) :
    (∀ t j i, t < numTiles W H TW TH → j < TH → i < TW →
      (tileToFrame (tilesPerRow W TW) TW TH t j i).1 < H ∧
      (tileToFrame (tilesPerRow W TW) TW TH t j i).2 < W) ∧
    (∀ r c, r < H → c < W →
      ∃! x : ℕ × ℕ × ℕ,
        (x.1 < numTiles W H TW TH ∧ x.2.1 < TH ∧ x.2.2 < TW) ∧
        tileToFrame (tilesPerRow W TW) TW TH x.1 x.2.1 x.2.2 = (r, c)) ∧
    (∀ r c, r < H → c < W → assembleFrame p W H TW TH r c = p r c) := by
  have hnum : numTiles W H TW TH = W / TW * (H / TH) := by
    rw [numTiles_eq hTW hTH]
    rfl
  have hHr : H / TH * TH = H := Nat.div_mul_cancel hTH
  have hWr : W / TW * TW = W := Nat.div_mul_cancel hTW
  refine ⟨?_, ?_, ?_⟩
  · intro t j i ht hj hi
    rw [hnum] at ht
    have htpr : 0 < W / TW := by
      rcases Nat.eq_zero_or_pos (W / TW) with h0 | h0
      · rw [h0, zero_mul] at ht
        exact absurd ht (Nat.not_lt_zero _)
      · exact h0
    have hdivlt : t / (W / TW) < H / TH :=
      (Nat.div_lt_iff_lt_mul htpr).mpr (by rw [mul_comm]; exact ht)
    have hmodlt : t % (W / TW) < W / TW := Nat.mod_lt _ htpr
    constructor
    · simp only [tileToFrame, tilesPerRow]
      calc t / (W / TW) * TH + j < H / TH * TH :=
          nat_mul_add_lt _ _ _ _ hdivlt hj
        _ = H := hHr
    · simp only [tileToFrame, tilesPerRow]
      calc t % (W / TW) * TW + i < W / TW * TW :=
          nat_mul_add_lt _ _ _ _ hmodlt hi
        _ = W := hWr
  · intro r c hr hc
    have hposW : 0 < W := by omega
    have htpr : 0 < W / TW := Nat.div_pos (Nat.le_of_dvd hposW hTW) hTWpos
    have hcd : c / TW < W / TW :=
      (Nat.div_lt_iff_lt_mul hTWpos).mpr (by rw [hWr]; exact hc)
    have hrd : r / TH < H / TH :=
      (Nat.div_lt_iff_lt_mul hTHpos).mpr (by rw [hHr]; exact hr)
    have hdec := nat_decomp_div (r / TH) (c / TW) (W / TW) htpr hcd
    refine ⟨⟨r / TH * (W / TW) + c / TW, r % TH, c % TW⟩,
      ⟨⟨?_, ?_, ?_⟩, ?_⟩, ?_⟩
    · rw [hnum, Nat.mul_comm (W / TW) (H / TH)]
      exact nat_mul_add_lt _ _ _ _ hrd hcd
    · exact Nat.mod_lt _ hTHpos
    · exact Nat.mod_lt _ hTWpos
    · simp only [tileToFrame, tilesPerRow]
      rw [hdec.1, hdec.2, Prod.mk.injEq]
      constructor
      · rw [mul_comm]
        exact Nat.div_add_mod r TH
      · rw [mul_comm]
        exact Nat.div_add_mod c TW
    · rintro ⟨t', j', i'⟩ ⟨⟨ht', hj', hi'⟩, hmap⟩
      simp only [tileToFrame, tilesPerRow, Prod.mk.injEq] at hmap
      obtain ⟨hrow, hcol⟩ := hmap
      have hd1 := nat_decomp_div (t' / (W / TW)) j' TH hTHpos hj'
      have hd2 := nat_decomp_div (t' % (W / TW)) i' TW hTWpos hi'
      rw [hrow] at hd1
      rw [hcol] at hd2
      have ht'eq : t' = r / TH * (W / TW) + c / TW :=
        calc t' = W / TW * (t' / (W / TW)) + t' % (W / TW) :=
            (Nat.div_add_mod t' (W / TW)).symm
          _ = W / TW * (r / TH) + c / TW := by rw [← hd1.1, ← hd2.1]
          _ = r / TH * (W / TW) + c / TW := by ring
      rw [Prod.mk.injEq, Prod.mk.injEq]
      exact ⟨ht'eq, hd1.2.symm, hd2.2.symm⟩
  · intro r c hr hc
    have hposW : 0 < W := by omega
    have htpr : 0 < W / TW := Nat.div_pos (Nat.le_of_dvd hposW hTW) hTWpos
    have hcd : c / TW < W / TW :=
      (Nat.div_lt_iff_lt_mul hTWpos).mpr (by rw [hWr]; exact hc)
    have hrd : r / TH < H / TH :=
      (Nat.div_lt_iff_lt_mul hTHpos).mpr (by rw [hHr]; exact hr)
    have hdec := nat_decomp_div (r / TH) (c / TW) (W / TW) htpr hcd
    simp only [assembleFrame, tilesPerRow]
    refine tilesFold_covered p (W / TW) TW TH (numTiles W H TW TH)
      (fun _ _ => BLACK) r c (r / TH * (W / TW) + c / TW) ?_ ?_
    · rw [hnum, Nat.mul_comm (W / TW) (H / TH)]
      exact nat_mul_add_lt _ _ _ _ hrd hcd
    · rw [hdec.1, hdec.2]
      refine ⟨?_, ?_, ?_, ?_⟩
      · calc r / TH * TH = TH * (r / TH) := Nat.mul_comm _ _
          _ ≤ TH * (r / TH) + r % TH := Nat.le_add_right _ _
          _ = r := Nat.div_add_mod r TH
      · calc r = TH * (r / TH) + r % TH := (Nat.div_add_mod r TH).symm
          _ < TH * (r / TH) + TH := Nat.add_lt_add_left (Nat.mod_lt r hTHpos) _
          _ = r / TH * TH + TH := by rw [Nat.mul_comm]
      · calc c / TW * TW = TW * (c / TW) := Nat.mul_comm _ _
          _ ≤ TW * (c / TW) + c % TW := Nat.le_add_right _ _
          _ = c := Nat.div_add_mod c TW
      · calc c = TW * (c / TW) + c % TW := (Nat.div_add_mod c TW).symm
          _ < TW * (c / TW) + TW := Nat.add_lt_add_left (Nat.mod_lt c hTWpos) _
          _ = c / TW * TW + TW := by rw [Nat.mul_comm]

/-- C5 witness: the bijection and reassembly property instantiated at the
concrete render constants of src/main.rs (1280×720 image, 16×9 tiles). -/
theorem c5_tiling_bijection_witness :
    (TILE_WIDTH ∣ IMAGE_WIDTH ∧ TILE_HEIGHT ∣ IMAGE_HEIGHT ∧
      0 < TILE_WIDTH ∧ 0 < TILE_HEIGHT) ∧
    ((∀ t j i, t < numTiles IMAGE_WIDTH IMAGE_HEIGHT TILE_WIDTH TILE_HEIGHT →
      j < TILE_HEIGHT → i < TILE_WIDTH →
      (tileToFrame (tilesPerRow IMAGE_WIDTH TILE_WIDTH) TILE_WIDTH TILE_HEIGHT
        t j i).1 < IMAGE_HEIGHT ∧
      (tileToFrame (tilesPerRow IMAGE_WIDTH TILE_WIDTH) TILE_WIDTH TILE_HEIGHT
        t j i).2 < IMAGE_WIDTH) ∧
    (∀ r c, r < IMAGE_HEIGHT → c < IMAGE_WIDTH →
      ∃! x : ℕ × ℕ × ℕ,
        (x.1 < numTiles IMAGE_WIDTH IMAGE_HEIGHT TILE_WIDTH TILE_HEIGHT ∧
          x.2.1 < TILE_HEIGHT ∧ x.2.2 < TILE_WIDTH) ∧
        tileToFrame (tilesPerRow IMAGE_WIDTH TILE_WIDTH) TILE_WIDTH TILE_HEIGHT
          x.1 x.2.1 x.2.2 = (r, c)) ∧
    (∀ r c, r < IMAGE_HEIGHT → c < IMAGE_WIDTH →
      assembleFrame (fun _ _ => WHITE) IMAGE_WIDTH IMAGE_HEIGHT TILE_WIDTH
        TILE_HEIGHT r c = (fun _ _ => WHITE) r c)) :=
  ⟨⟨by norm_num [TILE_WIDTH, IMAGE_WIDTH],
    by norm_num [TILE_HEIGHT, IMAGE_HEIGHT],
    by norm_num [TILE_WIDTH], by norm_num [TILE_HEIGHT]⟩,
    c5_tiling_bijection (fun _ _ => WHITE) IMAGE_WIDTH IMAGE_HEIGHT TILE_WIDTH
      TILE_HEIGHT (by norm_num [TILE_WIDTH, IMAGE_WIDTH])
      (by norm_num [TILE_HEIGHT, IMAGE_HEIGHT])
      (by norm_num [TILE_WIDTH]) (by norm_num [TILE_HEIGHT])⟩
